import Mathlib

/-!
Shallow embedding of the Markov name generator (src/main.cpp): a backoff
character n-gram model (class Model) and a word synthesizer (class
WordGenerator).  C++ strings are embedded as lists of characters, doubles as
exact rationals, the std::unordered_map containers as functions returning
none/[] for absent keys, and the process-wide rand() source as an explicit
stream of draws rands : Nat → Rat (each draw standing for
rand() / RAND_MAX ∈ [0, 1]) threaded through the computation together with a
position index.  Loops that the source bounds only probabilistically receive
explicit fuel and return none when it runs out; none also embeds a thrown
std::out_of_range from std::string::substr.
-/

namespace Markov

/-- A C++ std::string: a finite sequence of single-byte characters. -/
abbrev Word := List Char

/-- The modulus 2^64 of size_t arithmetic on the target platform. -/
def SIZE_T_MOD : Nat := 2 ^ 64

/-- Conversion of a C++ int to size_t (modulo 2^64), as performed by the
usual arithmetic conversions in mixed signed/unsigned comparisons. -/
def toSizeT (n : Int) : Nat := (n % (18446744073709551616 : Int)).toNat

/-- std::string::substr(pos, len): throws std::out_of_range (embedded as
none) when pos > size(), otherwise yields the characters from pos on,
at most len of them. -/
def substrCpp (s : Word) (pos len : Nat) : Option Word :=
  if pos ≤ s.length then some ((s.drop pos).take len) else none

/-- The per-order chain type, modelData =
std::unordered_map<std::string, std::vector<double>>; none embeds a key
that is absent from the map. -/
abbrev ModelData := Word → Option (List ℚ)

/-- The Model class fields: m_dPrior, m_order, m_alphabet, m_models
(src/main.cpp lines 107-113). -/
structure Model where
  dPrior : ℚ
  order : Nat
  alphabet : List Char
  models : List ModelData

/-- struct ExportedModel (src/main.cpp lines 23-26). -/
structure ExportedModel where
  alphabet : List Char
  models : List ModelData

/-- Model::isTrained (line 69): true iff the chain collection is non-empty. -/
def isTrained (m : Model) : Bool := !m.models.isEmpty

/-- Model::getModel (lines 123-128): m_models[order - 1].  The source indexes
the vector unchecked; out-of-range access cannot occur in the program and is
embedded as the everywhere-absent map. -/
def getModel (m : Model) (order : Nat) : ModelData :=
  m.models.getD (order - 1) (fun _ => none)

/-- Model::exportData (lines 60-63): alphabet and chains, by value. -/
def exportData (m : Model) : ExportedModel :=
  { alphabet := m.alphabet, models := m.models }

/-- Model::Model(const ExportedModel&) / Model(ExportedModel&&)
(lines 39-53): m_order is set to model.models.size() - 1, alphabet and
chains are copied.  m_dPrior is left uninitialized by the source and is
never read before a retrain overwrites it; we pick 0 for it. -/
def modelFromExported (e : ExportedModel) : Model :=
  { dPrior := 0, order := e.models.length - 1, alphabet := e.alphabet,
    models := e.models }

/-- Model::Model() (lines 55-58): untrained, m_order = 0, no chains
(m_dPrior again uninitialized and unread; we pick 0). -/
def emptyModel : Model :=
  { dPrior := 0, order := 0, alphabet := [], models := [] }

/-- Model::generateAlphabet (lines 188-200): seed with the boundary marker,
append each previously unseen character of each training word in corpus
order, then std::sort ascending.  The scanned list has no duplicates, so the
sorted result is the unique ascending ordering and any correct sort models
std::sort. -/
def generateAlphabet (trainData : List Word) : List Char :=
  List.insertionSort (fun a b => a ≤ b)
    (trainData.foldl
      (fun acc w => w.foldl (fun acc c => if c ∈ acc then acc else acc ++ [c]) acc)
      ['#'])

/-- The padded word of Model::buildChains line 160:
padding(order, '#') + word + "#". -/
def pad (order : Nat) (w : Word) : Word :=
  List.replicate order '#' ++ w ++ ['#']

/-- word.substr(i, order) on the padded word (line 163). -/
def keyAt (p : Word) (order i : Nat) : Word := (p.drop i).take order

/-- word.at(i + order) on the padded word (line 166); the index is always in
range for the positions the loop visits, so the default is never produced. -/
def nextAt (p : Word) (order i : Nat) : Char := p.getD (i + order) '#'

/-- observations[key].push_back(c) (lines 165-166): the map is embedded as a
function, a key outside the map having the empty vector. -/
def addObs (m : Word → List Char) (key : Word) (c : Char) : Word → List Char :=
  fun k => if k = key then m k ++ [c] else m k

/-- The inner observation loop of Model::buildChains (lines 162-167) for one
word: positions i with i < word.length() - order on the padded word, which
is i < (original length) + 1. -/
def obsWord (order : Nat) (m : Word → List Char) (w : Word) : Word → List Char :=
  (List.range (w.length + 1)).foldl
    (fun m i => addObs m (keyAt (pad order w) order i) (nextAt (pad order w) order i)) m

/-- The observation pass of Model::buildChains (lines 156-168) over the whole
corpus. -/
def observations (trainData : List Word) (order : Nat) : Word → List Char :=
  trainData.foldl (fun m w => obsWord order m w) (fun _ => [])

/-- The chain-building pass of Model::buildChains (lines 170-184): each key
of the observation map (exactly the keys with a non-empty observation
vector) maps to one weight prior + count per alphabet character, in
alphabet order; other keys are absent. -/
def buildChains (trainData : List Word) (order : Nat) (alphabet : List Char)
    (prior : ℚ) : ModelData :=
  fun key =>
    let value := observations trainData order key
    if value.isEmpty then none
    else some (alphabet.map (fun prediction => prior + (value.count prediction : ℚ)))

/-- Model::p_train (lines 115-121) together with the trained-model state it
produces: generateAlphabet, then buildChains for every order 1..m_order into
m_models[order - 1]. -/
def trainModel (trainData : List Word) (order : Nat) (prior : ℚ) : Model :=
  { dPrior := prior, order := order, alphabet := generateAlphabet trainData,
    models := (List.range order).map
      (fun i => buildChains trainData (i + 1) (generateAlphabet trainData) prior) }

/-- The cumulative-sum loop of Model::selectIndex (lines 131-137):
accumulator starts at acc and each weight pushes the running sum. -/
def totalsFrom (acc : ℚ) : List ℚ → List ℚ
  | [] => []
  | w :: ws => (acc + w) :: totalsFrom (acc + w) ws

/-- The scan loop of Model::selectIndex (lines 142-147): return the first
position whose total strictly exceeds random, and 0 on fall-through. -/
def scanLoop (random : ℚ) : List ℚ → Nat → Nat
  | [], _ => 0
  | t :: ts, i => if random < t then i else scanLoop random ts (i + 1)

/-- Model::selectIndex (lines 130-148).  randRes stands for the draw
static_cast<double>(rand()) / RAND_MAX. -/
def selectIndex (chain : List ℚ) (randRes : ℚ) : Nat :=
  scanLoop (randRes * chain.foldl (· + ·) 0) (totalsFrom 0 chain) 0

/-- The backoff loop of Model::generate (lines 81-90), descending over i.
The source computes context.substr(context.size() - i, i) with the position
wrapped in size_t, and looks every key up in getModel(order) where the local
variable order stays equal to m_order throughout.  A hit samples via
selectIndex, consuming one rand() draw.  none embeds the substr throw. -/
def generateLoop (m : Model) (context : Word) (rands : Nat → ℚ) (k : Nat) :
    Nat → Option (Char × Nat)
  | 0 => some ('#', k)
  | i + 1 =>
    match substrCpp context ((context.length + (SIZE_T_MOD - (i + 1))) % SIZE_T_MOD)
        (i + 1) with
    | none => none
    | some s =>
      match getModel m m.order s with
      | some chain => some (m.alphabet.getD (selectIndex chain (rands k)) '#', k + 1)
      | none => generateLoop m context rands k i

/-- Model::generate (lines 74-92): '#' when untrained, otherwise the backoff
loop from i = m_order down to 1, '#' when no order matches. -/
def generate (m : Model) (context : Word) (rands : Nat → ℚ) (k : Nat) :
    Option (Char × Nat) :=
  if isTrained m then generateLoop m context rands k m.order else some ('#', k)

/-- The inner while of WordGenerator::newWord (lines 240-245): keep calling
generate on the buffer and appending while the returned letter is not the
boundary marker.  The source bounds this loop only probabilistically; fuel
bounds it here, none meaning the fuel ran out (or a call crashed). -/
def growWord (m : Model) (rands : Nat → ℚ) : Nat → Word → Nat → Option (Word × Nat)
  | 0, _, _ => none
  | fuel + 1, word, k =>
    match generate m word rands k with
    | none => none
    | some (letter, k') =>
      if letter = '#' then some (word, k')
      else growWord m rands fuel (word ++ [letter]) k'

/-- The do-while of WordGenerator::newWord (lines 237-248): each attempt
seeds the buffer with order boundary markers, grows it, strips every
boundary marker, and repeats while ++i < 100 and the stripped size is
outside [minLength, maxLength] under the size_t comparisons.  Returns the
word, the number of attempts performed, and the next rand position. -/
def newWordLoop (m : Model) (rands : Nat → ℚ) (innerFuel : Nat) (minL maxL : Int) :
    Nat → Nat → Nat → Option (Word × Nat × Nat)
  | 0, _, _ => none
  | rem + 1, i, k =>
    match growWord m rands innerFuel (List.replicate m.order '#') k with
    | none => none
    | some (raw, k') =>
      if i + 1 < 100 ∧ ((raw.filter (fun c => c != '#')).length < toSizeT minL
          ∨ (raw.filter (fun c => c != '#')).length > toSizeT maxL) then
        newWordLoop m rands innerFuel minL maxL rem (i + 1) k'
      else some (raw.filter (fun c => c != '#'), i + 1, k')

/-- WordGenerator::newWord (lines 230-251): the empty string at once when
untrained (0 attempts), otherwise the attempt loop; 100 units of loop budget
always cover the 100-attempt cap. -/
def newWord (m : Model) (rands : Nat → ℚ) (innerFuel : Nat) (minL maxL : Int)
    (k : Nat) : Option (Word × Nat × Nat) :=
  if isTrained m then newWordLoop m rands innerFuel minL maxL 100 0 k
  else some ([], 0, k)

/-- The while of WordGenerator::newWords (lines 267-272): collect words until
n are kept; a duplicate is discarded unless repeat is set.  The source loop
is unbounded, so it gets explicit fuel. -/
def newWordsLoop (m : Model) (rands : Nat → ℚ) (innerFuel n : Nat)
    (minL maxL : Int) (rep : Bool) : Nat → Nat → List Word → Option (List Word × Nat)
  | 0, _, _ => none
  | f + 1, k, words =>
    if words.length < n then
      match newWord m rands innerFuel minL maxL k with
      | none => none
      | some (w, _, k') =>
        if rep || !(words.contains w) then
          newWordsLoop m rands innerFuel n minL maxL rep f k' (words ++ [w])
        else newWordsLoop m rands innerFuel n minL maxL rep f k' words
    else some (words, k)

/-- WordGenerator::newWords (lines 253-274): the empty vector at once when
untrained, otherwise the collection loop starting from no words. -/
def newWords (m : Model) (rands : Nat → ℚ) (innerFuel n : Nat) (minL maxL : Int)
    (rep : Bool) (f k : Nat) : Option (List Word × Nat) :=
  if isTrained m then newWordsLoop m rands innerFuel n minL maxL rep f k []
  else some ([], k)

/-- The cumulative sum of the first i + 1 weights of a chain, the quantity
the spec calls the running cumulative sum at index i. -/
def cumsum (chain : List ℚ) (i : Nat) : ℚ := (chain.take (i + 1)).foldl (· + ·) 0

/-- Spec-side count: how many times character c immediately follows the
k-character window key across the corpus, each word padded with k boundary
markers on the left and one on the right. -/
def followCount (trainData : List Word) (k : Nat) (key : Word) (c : Char) : Nat :=
  (trainData.map (fun w =>
    ((List.range (w.length + 1)).filter
      (fun i => keyAt (pad k w) k i = key ∧ nextAt (pad k w) k i = c)).length)).sum

/-- Spec-side predicate: the k-character window key occurs somewhere in the
padded corpus. -/
def keyObserved (trainData : List Word) (k : Nat) (key : Word) : Prop :=
  ∃ w ∈ trainData, ∃ i ≤ w.length, keyAt (pad k w) k i = key

/-- The observation characters one padded word contributes to a given key,
in position order. -/
def wordMatches (ord : Nat) (w : Word) (key : Word) : List Char :=
  (List.range (w.length + 1)).filterMap
    (fun i => if keyAt (pad ord w) ord i = key then some (nextAt (pad ord w) ord i)
      else none)

/-- Modelled from the spec (§4.1 predictNext): search orders from maxOrder
down to 1; for order i, skip it if the context is shorter than i, otherwise
take the trailing i characters as the key into that order's own chain; on
the first hit, weighted-sample an index and return the alphabet character at
it; return the boundary marker when no order matches.  This is the
comparison point for the backoff claim; the source's generate deviates from
it. -/
def predictNextSpec (m : Model) (context : Word) (randRes : ℚ) : Nat → Char
  | 0 => '#'
  | i + 1 =>
    if i + 1 ≤ context.length then
      match getModel m (i + 1) (context.drop (context.length - (i + 1))) with
      | some chain => m.alphabet.getD (selectIndex chain randRes) '#'
      | none => predictNextSpec m context randRes i
    else predictNextSpec m context randRes i

/-- Concrete corpus {"ab"}. -/
def tdAB : List Word := [['a', 'b']]

/-- Model trained on {"ab"} with order 2, prior 0. -/
def mAB : Model := trainModel tdAB 2 0

/-- The export/reconstruct round trip of mAB. -/
def mABr : Model := modelFromExported (exportData mAB)

/-- Concrete corpus {"a"}. -/
def tdA : List Word := [['a']]

/-- Model trained on {"a"} with order 1, prior 0. -/
def mA : Model := trainModel tdA 1 0

/-- Concrete corpus holding one empty word. -/
def tdE : List Word := [[]]

/-- Model trained on the one-empty-word corpus with order 1, prior 0. -/
def mE : Model := trainModel tdE 1 0

/-- The rand stream that always draws 0. -/
def rands0 : Nat → ℚ := fun _ => 0

theorem foldl_add_init (l : List ℚ) (a : ℚ) :
    l.foldl (· + ·) a = a + l.foldl (· + ·) 0 := by
  induction l generalizing a with
  | nil => simp
  | cons w ws ih =>
    simp only [List.foldl_cons]
    rw [ih (a + w), ih (0 + w)]
    ring

theorem foldl_add_eq_sum (l : List ℚ) : l.foldl (· + ·) 0 = l.sum := by
  induction l with
  | nil => simp
  | cons w ws ih =>
    simp only [List.foldl_cons, List.sum_cons]
    rw [foldl_add_init, ih]
    ring

theorem cumsum_cons (w : ℚ) (ws : List ℚ) (i : Nat) :
    cumsum (w :: ws) (i + 1) = w + cumsum ws i := by
  simp only [cumsum, List.take_succ_cons, List.foldl_cons]
  rw [foldl_add_init]
  ring

theorem cumsum_cons_zero (w : ℚ) (ws : List ℚ) : cumsum (w :: ws) 0 = w := by
  simp [cumsum]

theorem cumsum_nonneg (chain : List ℚ) (hw : ∀ w ∈ chain, 0 ≤ w) (i : Nat) :
    0 ≤ cumsum chain i := by
  unfold cumsum
  rw [foldl_add_eq_sum]
  exact List.sum_nonneg fun x hx => hw x (List.take_subset _ _ hx)

theorem cumsum_le_total (chain : List ℚ) (hw : ∀ w ∈ chain, 0 ≤ w) (i : Nat) :
    cumsum chain i ≤ chain.foldl (· + ·) 0 := by
  unfold cumsum
  rw [foldl_add_eq_sum, foldl_add_eq_sum]
  have hsplit := List.sum_take_add_sum_drop chain (i + 1)
  have hdrop : 0 ≤ (chain.drop (i + 1)).sum :=
    List.sum_nonneg fun x hx => hw x (List.drop_subset _ _ hx)
  linarith

theorem cumsum_last (chain : List ℚ) (h : chain ≠ []) :
    cumsum chain (chain.length - 1) = chain.foldl (· + ·) 0 := by
  have hlen : 1 ≤ chain.length := List.length_pos.mpr h
  unfold cumsum
  have h1 : chain.length - 1 + 1 = chain.length := by omega
  rw [h1, List.take_length]

theorem totalsFrom_length (chain : List ℚ) : ∀ a : ℚ,
    (totalsFrom a chain).length = chain.length := by
  induction chain with
  | nil => intro a; rfl
  | cons w ws ih => intro a; simp [totalsFrom, ih]

theorem totalsFrom_getD (chain : List ℚ) : ∀ (a : ℚ) (i : Nat), i < chain.length →
    (totalsFrom a chain).getD i 0 = a + cumsum chain i := by
  induction chain with
  | nil => intro a i h; simp at h
  | cons w ws ih =>
    intro a i h
    cases i with
    | zero => simp [totalsFrom, cumsum_cons_zero]
    | succ i =>
      simp only [totalsFrom, List.getD_cons_succ]
      rw [ih (a + w) i (by simpa using h), cumsum_cons]
      ring

theorem totalsFrom_mem (chain : List ℚ) : ∀ (a t : ℚ), t ∈ totalsFrom a chain →
    ∃ i, i < chain.length ∧ t = a + cumsum chain i := by
  induction chain with
  | nil => intro a t h; simp [totalsFrom] at h
  | cons w ws ih =>
    intro a t h
    simp only [totalsFrom, List.mem_cons] at h
    rcases h with h | h
    · exact ⟨0, by simp, by rw [h, cumsum_cons_zero]⟩
    · obtain ⟨i, hi, ht⟩ := ih (a + w) t h
      refine ⟨i + 1, by simpa using Nat.succ_lt_succ hi, ?_⟩
      rw [ht, cumsum_cons]
      ring

theorem scanLoop_none (random : ℚ) : ∀ (ts : List ℚ) (i0 : Nat),
    (∀ t ∈ ts, ¬ random < t) → scanLoop random ts i0 = 0 := by
  intro ts
  induction ts with
  | nil => intro i0 _; rfl
  | cons t ts ih =>
    intro i0 h
    have hn : ¬ random < t := h t (List.mem_cons_self t ts)
    simp only [scanLoop, if_neg hn]
    exact ih (i0 + 1) fun u hu => h u (List.mem_cons_of_mem t hu)

theorem scanLoop_hit (random : ℚ) : ∀ (ts : List ℚ) (j i0 : Nat), j < ts.length →
    random < ts.getD j 0 → (∀ j' < j, ¬ random < ts.getD j' 0) →
    scanLoop random ts i0 = i0 + j := by
  intro ts
  induction ts with
  | nil => intro j i0 h; simp at h
  | cons t ts ih =>
    intro j i0 hj hlt hbef
    cases j with
    | zero =>
      have ht : random < t := by simpa using hlt
      simp [scanLoop, if_pos ht]
    | succ j =>
      have h0 : ¬ random < t := by simpa using hbef 0 (Nat.succ_pos j)
      simp only [scanLoop, if_neg h0]
      have hrec := ih j (i0 + 1) (by simpa using hj) (by simpa using hlt)
        (fun j' h' => by simpa using hbef (j' + 1) (by omega))
      rw [hrec]
      omega

/-- C4: Model::selectIndex computes the running cumulative sums; the draw
randRes * total lies in [0, total) (randRes embedding
rand()/RAND_MAX ∈ [0, 1)); the returned value is the smallest index whose
cumulative sum strictly exceeds the draw; and whenever the total of the
(entrywise non-negative) weight vector is 0, selectIndex deterministically
returns index 0 rather than failing. -/
theorem c4_selectIndex (chain : List ℚ) (randRes : ℚ)
    (hw : ∀ w ∈ chain, 0 ≤ w) (h0 : 0 ≤ randRes) (h1 : randRes < 1) :
    (chain.foldl (· + ·) 0 = 0 → selectIndex chain randRes = 0)
    ∧ (0 < chain.foldl (· + ·) 0 →
        0 ≤ randRes * chain.foldl (· + ·) 0
        ∧ randRes * chain.foldl (· + ·) 0 < chain.foldl (· + ·) 0
        ∧ selectIndex chain randRes < chain.length
        ∧ randRes * chain.foldl (· + ·) 0 < cumsum chain (selectIndex chain randRes)
        ∧ ∀ j < selectIndex chain randRes,
            cumsum chain j ≤ randRes * chain.foldl (· + ·) 0) := by
  constructor
  · intro htot
    unfold selectIndex
    rw [htot, mul_zero]
    apply scanLoop_none
    intro t ht
    obtain ⟨i, hi, rfl⟩ := totalsFrom_mem chain 0 t ht
    have hle : cumsum chain i ≤ chain.foldl (· + ·) 0 := cumsum_le_total chain hw i
    rw [htot] at hle
    intro hlt
    rw [zero_add] at hlt
    linarith
  · intro htot
    have hne : chain ≠ [] := by
      rintro rfl
      simp at htot
    have hr0 : 0 ≤ randRes * chain.foldl (· + ·) 0 := mul_nonneg h0 (le_of_lt htot)
    have hrlt : randRes * chain.foldl (· + ·) 0 < chain.foldl (· + ·) 0 := by
      have := mul_lt_mul_of_pos_right h1 htot
      simpa using this
    have hex : ∃ j, j < chain.length ∧
        randRes * chain.foldl (· + ·) 0 < cumsum chain j := by
      refine ⟨chain.length - 1, ?_, ?_⟩
      · have := List.length_pos.mpr hne
        omega
      · rw [cumsum_last chain hne]
        exact hrlt
    have hspec := Nat.find_spec hex
    have hsel : selectIndex chain randRes = Nat.find hex := by
      unfold selectIndex
      have hres := scanLoop_hit (randRes * chain.foldl (· + ·) 0)
        (totalsFrom 0 chain) (Nat.find hex) 0
        (by rw [totalsFrom_length]; exact hspec.1)
        (by rw [totalsFrom_getD chain 0 _ hspec.1, zero_add]; exact hspec.2)
        (fun j' h' => by
          rw [totalsFrom_getD chain 0 j' (by omega), zero_add]
          have := Nat.find_min hex h'
          intro hcon
          exact this ⟨by omega, hcon⟩)
      rw [hres]
      omega
    refine ⟨hr0, hrlt, ?_, ?_, ?_⟩
    · rw [hsel]; exact hspec.1
    · rw [hsel]; exact hspec.2
    · intro j hj
      rw [hsel] at hj
      have := Nat.find_min hex hj
      have hjlen : j < chain.length := by omega
      have : ¬ randRes * chain.foldl (· + ·) 0 < cumsum chain j := fun hcon =>
        this ⟨hjlen, hcon⟩
      linarith [not_lt.mp this]

/-- C4 witness: the theorem applied to the weight vector [1, 0] and the
draw 0. -/
theorem c4_selectIndex_witness :
    ((∀ w ∈ ([1, 0] : List ℚ), 0 ≤ w) ∧ (0 : ℚ) ≤ 0 ∧ (0 : ℚ) < 1)
    ∧ (0 < ([1, 0] : List ℚ).foldl (· + ·) 0 →
        0 ≤ (0 : ℚ) * ([1, 0] : List ℚ).foldl (· + ·) 0
        ∧ (0 : ℚ) * ([1, 0] : List ℚ).foldl (· + ·) 0 <
            ([1, 0] : List ℚ).foldl (· + ·) 0
        ∧ selectIndex [1, 0] 0 < ([1, 0] : List ℚ).length
        ∧ (0 : ℚ) * ([1, 0] : List ℚ).foldl (· + ·) 0 <
            cumsum [1, 0] (selectIndex [1, 0] 0)
        ∧ ∀ j < selectIndex [1, 0] 0,
            cumsum [1, 0] j ≤ (0 : ℚ) * ([1, 0] : List ℚ).foldl (· + ·) 0) :=
  ⟨⟨by norm_num, le_refl 0, by norm_num⟩,
    (c4_selectIndex [1, 0] 0 (by norm_num) (by norm_num) (by norm_num)).2⟩

theorem scanChars_spec (w : Word) : ∀ acc : List Char, acc.Nodup →
    (w.foldl (fun acc c => if c ∈ acc then acc else acc ++ [c]) acc).Nodup
    ∧ ∀ x, x ∈ w.foldl (fun acc c => if c ∈ acc then acc else acc ++ [c]) acc ↔
        x ∈ acc ∨ x ∈ w := by
  induction w with
  | nil =>
    intro acc h
    exact ⟨h, by simp⟩
  | cons c w ih =>
    intro acc h
    simp only [List.foldl_cons]
    by_cases hc : c ∈ acc
    · rw [if_pos hc]
      obtain ⟨h1, h2⟩ := ih acc h
      refine ⟨h1, fun x => ?_⟩
      rw [h2]
      constructor
      · rintro (hx | hx)
        · exact Or.inl hx
        · exact Or.inr (List.mem_cons_of_mem _ hx)
      · rintro (hx | hx)
        · exact Or.inl hx
        · rcases List.mem_cons.mp hx with rfl | hx
          · exact Or.inl hc
          · exact Or.inr hx
    · rw [if_neg hc]
      have hnd : (acc ++ [c]).Nodup := by
        simp [List.nodup_append, h, hc]
      obtain ⟨h1, h2⟩ := ih _ hnd
      refine ⟨h1, fun x => ?_⟩
      rw [h2]
      simp only [List.mem_append, List.mem_singleton, List.mem_cons]
      tauto

theorem alphaScan_spec (td : List Word) : ∀ acc : List Char, acc.Nodup →
    (td.foldl (fun acc w =>
        w.foldl (fun acc c => if c ∈ acc then acc else acc ++ [c]) acc) acc).Nodup
    ∧ ∀ x, x ∈ td.foldl (fun acc w =>
        w.foldl (fun acc c => if c ∈ acc then acc else acc ++ [c]) acc) acc ↔
        x ∈ acc ∨ ∃ w ∈ td, x ∈ w := by
  induction td with
  | nil =>
    intro acc h
    exact ⟨h, by simp⟩
  | cons w td ih =>
    intro acc h
    simp only [List.foldl_cons]
    obtain ⟨h1, h2⟩ := scanChars_spec w acc h
    obtain ⟨h3, h4⟩ := ih _ h1
    refine ⟨h3, fun x => ?_⟩
    rw [h4, h2]
    constructor
    · rintro ((hx | hx) | ⟨u, hu, hx⟩)
      · exact Or.inl hx
      · exact Or.inr ⟨w, List.mem_cons_self w td, hx⟩
      · exact Or.inr ⟨u, List.mem_cons_of_mem _ hu, hx⟩
    · rintro (hx | ⟨u, hu, hx⟩)
      · exact Or.inl (Or.inl hx)
      · rcases List.mem_cons.mp hu with rfl | hu
        · exact Or.inl (Or.inr hx)
        · exact Or.inr ⟨u, hu, hx⟩

/-- C6: for every training corpus, the alphabet produced by
Model::generateAlphabet contains exactly the distinct characters appearing
in the corpus plus the boundary marker, is sorted ascending, and has no
duplicate entries. -/
theorem c6_alphabet (td : List Word) :
    (∀ c, c ∈ generateAlphabet td ↔ c = '#' ∨ ∃ w ∈ td, c ∈ w)
    ∧ (generateAlphabet td).Sorted (fun a b => a ≤ b)
    ∧ (generateAlphabet td).Nodup := by
  have hperm := List.perm_insertionSort (fun a b : Char => a ≤ b)
    (td.foldl (fun acc w =>
      w.foldl (fun acc c => if c ∈ acc then acc else acc ++ [c]) acc) ['#'])
  obtain ⟨hnd, hmem⟩ := alphaScan_spec td ['#'] (by simp)
  refine ⟨?_, ?_, ?_⟩
  · intro c
    rw [generateAlphabet, hperm.mem_iff, hmem]
    simp
  · exact List.sorted_insertionSort _ _
  · exact hperm.nodup_iff.mpr hnd

theorem foldl_addObs (p : Word) (ord : Nat) : ∀ (xs : List Nat) (m : Word → List Char)
    (key : Word),
    (xs.foldl (fun m i => addObs m (keyAt p ord i) (nextAt p ord i)) m) key
    = m key ++ xs.filterMap
        (fun i => if keyAt p ord i = key then some (nextAt p ord i) else none) := by
  intro xs
  induction xs with
  | nil => intro m key; simp
  | cons x xs ih =>
    intro m key
    simp only [List.foldl_cons, List.filterMap_cons]
    by_cases hx : keyAt p ord x = key
    · rw [if_pos hx, ih]
      have hstep : addObs m (keyAt p ord x) (nextAt p ord x) key
          = m key ++ [nextAt p ord x] := by
        unfold addObs
        rw [if_pos hx.symm]
      rw [hstep, List.append_assoc, List.singleton_append]
    · rw [if_neg hx, ih]
      have hstep : addObs m (keyAt p ord x) (nextAt p ord x) key = m key := by
        unfold addObs
        rw [if_neg fun h => hx h.symm]
      rw [hstep]

theorem observations_fold (ord : Nat) : ∀ (td : List Word) (m : Word → List Char)
    (key : Word),
    (td.foldl (fun m w => obsWord ord m w) m) key
    = m key ++ (td.map (fun w => wordMatches ord w key)).flatten := by
  intro td
  induction td with
  | nil => intro m key; simp
  | cons w td ih =>
    intro m key
    simp only [List.foldl_cons, List.map_cons, List.flatten_cons]
    rw [ih]
    unfold obsWord wordMatches
    rw [foldl_addObs, List.append_assoc]

theorem observations_spec (td : List Word) (ord : Nat) (key : Word) :
    observations td ord key = (td.map (fun w => wordMatches ord w key)).flatten := by
  unfold observations
  rw [observations_fold]
  simp

theorem count_filterMap_key (p : Word) (ord : Nat) (key : Word) (c : Char) :
    ∀ l : List Nat,
    (l.filterMap (fun i => if keyAt p ord i = key then some (nextAt p ord i)
        else none)).count c
    = (l.filter (fun i => keyAt p ord i = key ∧ nextAt p ord i = c)).length := by
  intro l
  induction l with
  | nil => rfl
  | cons x l ih =>
    simp only [List.filterMap_cons, List.filter_cons]
    by_cases h1 : keyAt p ord x = key
    · rw [if_pos h1]
      by_cases h2 : nextAt p ord x = c
      · have hd : decide (keyAt p ord x = key ∧ nextAt p ord x = c) = true := by
          simp [h1, h2]
        rw [hd, if_pos rfl, h2, List.count_cons_self, ih, List.length_cons]
      · have hd : decide (keyAt p ord x = key ∧ nextAt p ord x = c) = false := by
          simp [h2]
        rw [hd]
        simp only [Bool.false_eq_true, if_false]
        rw [List.count_cons, ih]
        have hbe : (nextAt p ord x == c) = false := by
          rw [beq_eq_false_iff_ne]
          exact h2
        have hbe' : (c == nextAt p ord x) = false := by
          rw [beq_eq_false_iff_ne]
          exact fun h => h2 h.symm
        simp [hbe, hbe']
    · rw [if_neg h1]
      have hd : decide (keyAt p ord x = key ∧ nextAt p ord x = c) = false := by
        simp [h1]
      rw [hd]
      simp only [Bool.false_eq_true, if_false]
      exact ih

theorem count_flatten_eq (c : Char) : ∀ L : List (List Char),
    L.flatten.count c = (L.map (fun l => l.count c)).sum := by
  intro L
  induction L with
  | nil => rfl
  | cons l L ih => simp [List.count_append, ih]

theorem count_observations (td : List Word) (k : Nat) (key : Word) (c : Char) :
    (observations td k key).count c = followCount td k key c := by
  rw [observations_spec, count_flatten_eq]
  unfold followCount
  rw [List.map_map]
  congr 1
  apply List.map_congr_left
  intro w _
  unfold wordMatches
  simp only [Function.comp_apply]
  exact count_filterMap_key (pad k w) k key c _

theorem observations_nil_iff (td : List Word) (k : Nat) (key : Word) :
    observations td k key = [] ↔ ¬ keyObserved td k key := by
  rw [observations_spec]
  unfold keyObserved
  constructor
  · intro h hobs
    obtain ⟨w, hw, i, hi, hkey⟩ := hobs
    have hmem : wordMatches k w key ∈ td.map (fun w => wordMatches k w key) :=
      List.mem_map_of_mem _ hw
    have hnil : wordMatches k w key = [] := by
      have := List.flatten_eq_nil_iff.mp h
      exact this _ hmem
    unfold wordMatches at hnil
    rw [List.filterMap_eq_nil_iff] at hnil
    have := hnil i (by simpa [List.mem_range] using Nat.lt_succ_of_le hi)
    rw [if_pos hkey] at this
    exact Option.some_ne_none _ this
  · intro h
    rw [List.flatten_eq_nil_iff]
    intro l hl
    obtain ⟨w, hw, rfl⟩ := List.mem_map.mp hl
    unfold wordMatches
    rw [List.filterMap_eq_nil_iff]
    intro i hi
    by_cases hkey : keyAt (pad k w) k i = key
    · exact absurd ⟨w, hw, i, by simpa [List.mem_range, Nat.lt_succ_iff] using hi,
        hkey⟩ h
    · rw [if_neg hkey]

theorem getModel_trainModel (td : List Word) (ord : Nat) (prior : ℚ) (k : Nat)
    (h1 : 1 ≤ k) (h2 : k ≤ ord) :
    getModel (trainModel td ord prior) k
    = buildChains td k (generateAlphabet td) prior := by
  unfold getModel trainModel
  simp only
  have hlen : k - 1 < ((List.range ord).map (fun i =>
      buildChains td (i + 1) (generateAlphabet td) prior)).length := by
    simp only [List.length_map, List.length_range]
    omega
  rw [List.getD_eq_getElem?_getD, List.getElem?_eq_getElem hlen]
  simp only [List.getElem_map, List.getElem_range, Option.getD_some]
  have hk : k - 1 + 1 = k := by omega
  rw [hk]

theorem getD_map_lt {α β : Type} (f : α → β) (l : List α) (i : Nat)
    (h : i < l.length) (d : β) (d' : α) : (l.map f).getD i d = f (l.getD i d') := by
  rw [List.getD_eq_getElem?_getD, List.getD_eq_getElem?_getD,
    List.getElem?_eq_getElem (by simpa using h), List.getElem?_eq_getElem h]
  simp

/-- C5: after training, every key stored in the order-k chain maps to a
weight vector of length = alphabet size, in alphabet order, whose entry for
alphabet character c is prior plus the number of occurrences of c
immediately following that key across the padded corpus; hence every entry
is at least prior; and a key is absent from the chain exactly when it was
never observed in training. -/
theorem c5_chains (td : List Word) (ord : Nat) (prior : ℚ) (k : Nat)
    (h1 : 1 ≤ k) (h2 : k ≤ ord) :
    (∀ key v, getModel (trainModel td ord prior) k key = some v →
      v.length = (trainModel td ord prior).alphabet.length
      ∧ (∀ i, i < (trainModel td ord prior).alphabet.length →
          v.getD i 0 = prior +
            (followCount td k key ((trainModel td ord prior).alphabet.getD i '#') : ℚ))
      ∧ ∀ x ∈ v, prior ≤ x)
    ∧ (∀ key, getModel (trainModel td ord prior) k key = none ↔
        ¬ keyObserved td k key) := by
  rw [getModel_trainModel td ord prior k h1 h2]
  have halpha : (trainModel td ord prior).alphabet = generateAlphabet td := rfl
  constructor
  · intro key v hv
    unfold buildChains at hv
    simp only at hv
    by_cases he : (observations td k key).isEmpty
    · rw [if_pos he] at hv
      exact absurd hv (Option.noConfusion)
    · rw [if_neg he] at hv
      have hv' : v = (generateAlphabet td).map
          (fun prediction => prior + ((observations td k key).count prediction : ℚ)) :=
        (Option.some_inj.mp hv).symm
      refine ⟨?_, ?_, ?_⟩
      · rw [hv', halpha, List.length_map]
      · intro i hi
        rw [halpha] at hi
        rw [hv', halpha, getD_map_lt _ _ i hi 0 '#', count_observations]
      · intro x hx
        rw [hv'] at hx
        obtain ⟨c, _, rfl⟩ := List.mem_map.mp hx
        have : (0 : ℚ) ≤ ((observations td k key).count c : ℚ) := Nat.cast_nonneg _
        linarith
  · intro key
    unfold buildChains
    simp only
    by_cases he : (observations td k key).isEmpty
    · rw [if_pos he]
      simp only [true_iff]
      rw [← observations_nil_iff]
      exact List.isEmpty_iff.mp he
    · rw [if_neg he]
      simp only [reduceCtorEq, false_iff, not_not]
      by_contra hobs
      exact he (List.isEmpty_iff.mpr ((observations_nil_iff td k key).mpr hobs))

theorem trainChain1_ab_a :
    getModel (trainModel [['a', 'b']] 1 0) 1 ['a'] = some [0, 0, 1] := by
  have hraw : getModel (trainModel [['a', 'b']] 1 0) 1 ['a']
      = some [0 + ((0 : Nat) : ℚ), 0 + ((0 : Nat) : ℚ), 0 + ((1 : Nat) : ℚ)] := rfl
  rw [hraw]
  norm_num

/-- C5 witness: the theorem applied to the corpus {"ab"} with order 1,
prior 0, at the stored key "a". -/
theorem c5_chains_witness :
    ((1 : Nat) ≤ 1)
    ∧ ([0, 0, 1] : List ℚ).length = (trainModel [['a', 'b']] 1 0).alphabet.length :=
  ⟨le_refl 1,
    ((c5_chains [['a', 'b']] 1 0 1 (le_refl 1) (le_refl 1)).1 ['a'] [0, 0, 1]
      trainChain1_ab_a).1⟩

theorem mA_trained : isTrained mA = true := by decide

theorem mA_order : mA.order = 1 := rfl

theorem mA_alpha : mA.alphabet = ['#', 'a'] := by decide

theorem mA_chain_hash :
    getModel mA 1 ['#'] = some [0 + ((0 : Nat) : ℚ), 0 + ((1 : Nat) : ℚ)] := rfl

theorem mA_chain_a :
    getModel mA 1 ['a'] = some [0 + ((1 : Nat) : ℚ), 0 + ((0 : Nat) : ℚ)] := rfl

theorem selA_hash : selectIndex [0, 1] 0 = 1 := by
  norm_num [selectIndex, totalsFrom, scanLoop]

theorem selA_a : selectIndex [1, 0] 0 = 0 := by
  norm_num [selectIndex, totalsFrom, scanLoop]

theorem mA_gen_seed (k : Nat) : generate mA ['#'] rands0 k = some ('a', k + 1) := by
  simp only [generate, mA_trained, if_true, mA_order, generateLoop, rands0]
  norm_num [substrCpp, SIZE_T_MOD, mA_chain_hash, selA_hash, mA_alpha]

theorem mA_gen_a (k : Nat) : generate mA ['#', 'a'] rands0 k = some ('#', k + 1) := by
  simp only [generate, mA_trained, if_true, mA_order, generateLoop, rands0]
  norm_num [substrCpp, SIZE_T_MOD, mA_chain_a, selA_a, mA_alpha]


theorem generateLoop_step_none (m : Model) (context : Word) (rands : Nat → ℚ)
    (k i : Nat)
    (hs : substrCpp context ((context.length + (SIZE_T_MOD - (i + 1))) % SIZE_T_MOD)
      (i + 1) = none) :
    generateLoop m context rands k (i + 1) = none := by
  conv_lhs => unfold generateLoop
  rw [hs]

theorem generateLoop_step_hit (m : Model) (context : Word) (rands : Nat → ℚ)
    (k i : Nat) (s : Word) (chain : List ℚ)
    (hs : substrCpp context ((context.length + (SIZE_T_MOD - (i + 1))) % SIZE_T_MOD)
      (i + 1) = some s)
    (hc : getModel m m.order s = some chain) :
    generateLoop m context rands k (i + 1)
    = some (m.alphabet.getD (selectIndex chain (rands k)) '#', k + 1) := by
  conv_lhs => unfold generateLoop
  rw [hs]
  show (match getModel m m.order s with
    | some chain => some (m.alphabet.getD (selectIndex chain (rands k)) '#', k + 1)
    | none => generateLoop m context rands k i) = _
  rw [hc]

theorem generateLoop_step_miss (m : Model) (context : Word) (rands : Nat → ℚ)
    (k i : Nat) (s : Word)
    (hs : substrCpp context ((context.length + (SIZE_T_MOD - (i + 1))) % SIZE_T_MOD)
      (i + 1) = some s)
    (hc : getModel m m.order s = none) :
    generateLoop m context rands k (i + 1) = generateLoop m context rands k i := by
  conv_lhs => unfold generateLoop
  rw [hs]
  show (match getModel m m.order s with
    | some chain => some (m.alphabet.getD (selectIndex chain (rands k)) '#', k + 1)
    | none => generateLoop m context rands k i) = _
  rw [hc]

theorem growWord_step (m : Model) (rands : Nat → ℚ) (fuel : Nat) (word : Word)
    (k : Nat) (letter : Char) (k1 : Nat)
    (h : generate m word rands k = some (letter, k1)) :
    growWord m rands (fuel + 1) word k
    = if letter = '#' then some (word, k1)
      else growWord m rands fuel (word ++ [letter]) k1 := by
  conv_lhs => unfold growWord
  rw [h]

theorem growWord_step_none (m : Model) (rands : Nat → ℚ) (fuel : Nat) (word : Word)
    (k : Nat) (h : generate m word rands k = none) :
    growWord m rands (fuel + 1) word k = none := by
  conv_lhs => unfold growWord
  rw [h]

theorem newWordLoop_step (m : Model) (rands : Nat → ℚ) (innerFuel : Nat)
    (minL maxL : Int) (rem i k : Nat) (raw : Word) (k1 : Nat)
    (h : growWord m rands innerFuel (List.replicate m.order '#') k = some (raw, k1)) :
    newWordLoop m rands innerFuel minL maxL (rem + 1) i k
    = if i + 1 < 100 ∧ ((raw.filter (fun c => c != '#')).length < toSizeT minL
        ∨ (raw.filter (fun c => c != '#')).length > toSizeT maxL) then
        newWordLoop m rands innerFuel minL maxL rem (i + 1) k1
      else some (raw.filter (fun c => c != '#'), i + 1, k1) := by
  conv_lhs => unfold newWordLoop
  rw [h]

theorem newWordLoop_step_none (m : Model) (rands : Nat → ℚ) (innerFuel : Nat)
    (minL maxL : Int) (rem i k : Nat)
    (h : growWord m rands innerFuel (List.replicate m.order '#') k = none) :
    newWordLoop m rands innerFuel minL maxL (rem + 1) i k = none := by
  conv_lhs => unfold newWordLoop
  rw [h]

theorem newWordsLoop_stop (m : Model) (rands : Nat → ℚ) (innerFuel n : Nat)
    (minL maxL : Int) (rep : Bool) (f k : Nat) (words : List Word)
    (hge : ¬ words.length < n) :
    newWordsLoop m rands innerFuel n minL maxL rep (f + 1) k words
    = some (words, k) := by
  conv_lhs => unfold newWordsLoop
  rw [if_neg hge]

theorem newWordsLoop_step (m : Model) (rands : Nat → ℚ) (innerFuel n : Nat)
    (minL maxL : Int) (rep : Bool) (f k : Nat) (words : List Word) (w : Word)
    (a k1 : Nat) (hlt : words.length < n)
    (h : newWord m rands innerFuel minL maxL k = some (w, a, k1)) :
    newWordsLoop m rands innerFuel n minL maxL rep (f + 1) k words
    = if rep || !(words.contains w) then
        newWordsLoop m rands innerFuel n minL maxL rep f k1 (words ++ [w])
      else newWordsLoop m rands innerFuel n minL maxL rep f k1 words := by
  conv_lhs => unfold newWordsLoop
  rw [if_pos hlt, h]

theorem newWordsLoop_step_none (m : Model) (rands : Nat → ℚ) (innerFuel n : Nat)
    (minL maxL : Int) (rep : Bool) (f k : Nat) (words : List Word)
    (hlt : words.length < n)
    (h : newWord m rands innerFuel minL maxL k = none) :
    newWordsLoop m rands innerFuel n minL maxL rep (f + 1) k words = none := by
  conv_lhs => unfold newWordsLoop
  rw [if_pos hlt, h]

theorem mA_grow (k : Nat) : growWord mA rands0 2 ['#'] k = some (['#', 'a'], k + 2) := by
  show growWord mA rands0 (1 + 1) ['#'] k = some (['#', 'a'], k + 2)
  rw [growWord_step mA rands0 1 ['#'] k 'a' (k + 1) (mA_gen_seed k)]
  rw [if_neg (by decide : ¬ ('a' : Char) = '#')]
  show growWord mA rands0 (0 + 1) ['#', 'a'] (k + 1) = some (['#', 'a'], k + 2)
  rw [growWord_step mA rands0 0 ['#', 'a'] (k + 1) '#' (k + 2) (mA_gen_a (k + 1))]
  rw [if_pos rfl]

theorem mA_grow_rep (k : Nat) :
    growWord mA rands0 2 (List.replicate mA.order '#') k = some (['#', 'a'], k + 2) :=
  mA_grow k

theorem mA_newWord18 (k : Nat) : newWord mA rands0 2 1 8 k = some (['a'], 1, k + 2) := by
  unfold newWord
  rw [if_pos mA_trained]
  show newWordLoop mA rands0 2 1 8 (99 + 1) 0 k = some (['a'], 1, k + 2)
  rw [newWordLoop_step mA rands0 2 1 8 99 0 k ['#', 'a'] (k + 2) (mA_grow_rep k)]
  rw [if_neg (by decide)]
  rfl

theorem mAB_trained : isTrained mAB = true := by decide

theorem mAB_order : mAB.order = 2 := rfl

theorem mAB_alpha : mAB.alphabet = ['#', 'a', 'b'] := by decide

theorem mAB_chain1_a : getModel mAB 1 ['a'] = some [0, 0, 1] := by
  have hraw : getModel mAB 1 ['a']
      = some [0 + ((0 : Nat) : ℚ), 0 + ((0 : Nat) : ℚ), 0 + ((1 : Nat) : ℚ)] := rfl
  rw [hraw]
  norm_num

theorem mAB_chain2_aa : getModel mAB 2 ['a', 'a'] = none := by decide

theorem selAB_001 : selectIndex [0, 0, 1] 0 = 2 := by
  norm_num [selectIndex, totalsFrom, scanLoop]

theorem mAB_gen_aa : generate mAB ['a', 'a'] rands0 0 = some ('#', 0) := by decide

theorem mAB_spec_aa : predictNextSpec mAB ['a', 'a'] 0 mAB.order = 'b' := by
  rw [mAB_order]
  norm_num [predictNextSpec, mAB_chain2_aa, mAB_chain1_a, selAB_001, mAB_alpha]

theorem mABr_trained : isTrained mABr = true := by decide

theorem mABr_order : mABr.order = 1 := by decide

theorem mABr_chain1_a : getModel mABr 1 ['a']
    = some [0 + ((0 : Nat) : ℚ), 0 + ((0 : Nat) : ℚ), 0 + ((1 : Nat) : ℚ)] := rfl

theorem mABr_alpha : mABr.alphabet = ['#', 'a', 'b'] := by decide

theorem mABr_gen_aa : generate mABr ['a', 'a'] rands0 0 = some ('b', 1) := by
  simp only [generate, mABr_trained, if_true, mABr_order, generateLoop, rands0]
  norm_num [substrCpp, SIZE_T_MOD, mABr_chain1_a, selAB_001, mABr_alpha]

/-- C1: the spec says predictNext takes, for each order i from maxOrder down
to 1, the trailing i characters of the context as the key into the order-i
chain.  The code (Model::generate) looks every key up in getModel(order)
with the local order pinned at m_order, so backoff misses every lower
order: on the model trained from {"ab"} with order 2 and context "aa", the
order-1 chain contains the key "a", whose weight vector samples 'b' at
draw 0, yet generate falls through every order and returns '#' without
consuming a draw. -/
theorem c1_backoff_code_bug :
    getModel mAB 1 ['a'] = some [0, 0, 1]
    ∧ mAB.alphabet.getD (selectIndex [0, 0, 1] 0) '#' = 'b'
    ∧ predictNextSpec mAB ['a', 'a'] 0 mAB.order = 'b'
    ∧ generate mAB ['a', 'a'] rands0 0 = some ('#', 0) := by
  refine ⟨mAB_chain1_a, ?_, mAB_spec_aa, mAB_gen_aa⟩
  rw [selAB_001, mAB_alpha]
  rfl

/-- C2: constructing a model from an exported snapshot sets
m_order = models.size() - 1 (src/main.cpp lines 40 and 48), so the
reconstruction of the order-2 model trained from {"ab"} reports order 1
instead of the snapshot's chain count 2, and although alphabet and chains
are copied identically, predictNext("aa") diverges: '#' on the original and
'b' on the reconstruction at draw 0. -/
theorem c2_export_code_bug :
    (exportData mAB).models.length = 2
    ∧ mAB.order = 2
    ∧ mABr.order = 1
    ∧ mABr.alphabet = mAB.alphabet
    ∧ mABr.models = mAB.models
    ∧ generate mAB ['a', 'a'] rands0 0 = some ('#', 0)
    ∧ generate mABr ['a', 'a'] rands0 0 = some ('b', 1) :=
  ⟨by decide, rfl, mABr_order, rfl, rfl, mAB_gen_aa, mABr_gen_aa⟩

/-- C3 counterexample: on the model trained from {"a"} with order 1, the
empty context makes context.substr(context.size() - i, i) wrap the position
in size_t, and predictNext throws std::out_of_range (embedded as none)
instead of skipping the order. -/
theorem c3_short_context_counterexample : generate mA [] rands0 0 = none := by decide

/-- C3 amended: predictNext never crashes on a context of length at least
maxOrder (as in every call the program itself makes): every substr position
is then in range, every miss falls through to the next lower order, and the
loop returns a character. -/
theorem c3_long_context_safe (m : Model) (context : Word) (rands : Nat → ℚ) (k : Nat)
    (h1 : m.order ≤ context.length) (h2 : context.length < SIZE_T_MOD) :
    (generate m context rands k).isSome = true := by
  have hM : SIZE_T_MOD = 18446744073709551616 := by norm_num [SIZE_T_MOD]
  unfold generate
  by_cases ht : isTrained m
  · rw [if_pos ht]
    suffices h : ∀ i, i ≤ context.length → (generateLoop m context rands k i).isSome = true
      from h m.order h1
    intro i
    induction i with
    | zero => intro _; rfl
    | succ i ih =>
      intro hle
      have hpos : (context.length + (SIZE_T_MOD - (i + 1))) % SIZE_T_MOD
          = context.length - (i + 1) := by
        rw [hM] at h2 ⊢
        omega
      have hsub : substrCpp context
          ((context.length + (SIZE_T_MOD - (i + 1))) % SIZE_T_MOD) (i + 1)
          = some ((context.drop (context.length - (i + 1))).take (i + 1)) := by
        rw [hpos]
        unfold substrCpp
        rw [if_pos (by omega)]
      cases hc : getModel m m.order
          ((context.drop (context.length - (i + 1))).take (i + 1)) with
      | some chain =>
        rw [generateLoop_step_hit m context rands k i _ chain hsub hc]
        rfl
      | none =>
        rw [generateLoop_step_miss m context rands k i _ hsub hc]
        exact ih (by omega)
  · rw [if_neg ht]
    rfl

/-- C3 amended witness: the amended theorem applied to the trained order-1
model and the length-1 context "a". -/
theorem c3_long_context_safe_witness :
    (mA.order ≤ (['a'] : Word).length ∧ (['a'] : Word).length < SIZE_T_MOD)
    ∧ (generate mA ['a'] rands0 0).isSome = true :=
  ⟨⟨by decide, by decide⟩, c3_long_context_safe mA ['a'] rands0 0 (by decide) (by decide)⟩

/-- C9: on an untrained model (no chains), every operation returns its
defined fallback instead of raising: predictNext returns the boundary
marker for every context, newWord returns the empty string immediately (0
attempts), and newWords returns the empty sequence immediately. -/
theorem c9_untrained_fallbacks (m : Model) (h : m.models = []) :
    (∀ context rands k, generate m context rands k = some ('#', k))
    ∧ (∀ rands innerFuel minL maxL k,
        newWord m rands innerFuel minL maxL k = some ([], 0, k))
    ∧ (∀ rands innerFuel n minL maxL rep f k,
        newWords m rands innerFuel n minL maxL rep f k = some ([], k)) := by
  have ht : isTrained m = false := by
    unfold isTrained
    rw [h]
    rfl
  refine ⟨?_, ?_, ?_⟩
  · intro context rands k
    unfold generate
    rw [ht]
    rfl
  · intro rands innerFuel minL maxL k
    unfold newWord
    rw [ht]
    rfl
  · intro rands innerFuel n minL maxL rep f k
    unfold newWords
    rw [ht]
    rfl

/-- C9 witness: the theorem applied to the default-constructed model. -/
theorem c9_untrained_fallbacks_witness :
    emptyModel.models = []
    ∧ generate emptyModel ['x'] rands0 0 = some ('#', 0)
    ∧ newWord emptyModel rands0 5 1 10 0 = some ([], 0, 0)
    ∧ newWords emptyModel rands0 5 3 1 10 true 7 0 = some ([], 0) :=
  ⟨rfl, (c9_untrained_fallbacks emptyModel rfl).1 ['x'] rands0 0,
    (c9_untrained_fallbacks emptyModel rfl).2.1 rands0 5 1 10 0,
    (c9_untrained_fallbacks emptyModel rfl).2.2 rands0 5 3 1 10 true 7 0⟩

theorem generateLoop_shape (m : Model) (context : Word) (rands : Nat → ℚ) (k : Nat) :
    ∀ (i : Nat) (l : Char) (k' : Nat), generateLoop m context rands k i = some (l, k') →
    l = '#' ∨ ∃ idx, l = m.alphabet.getD idx '#' := by
  intro i
  induction i with
  | zero =>
    intro l k' h
    have h0 : generateLoop m context rands k 0 = some ('#', k) := rfl
    rw [h0] at h
    simp only [Option.some_inj, Prod.mk.injEq] at h
    exact Or.inl h.1.symm
  | succ i ih =>
    intro l k' h
    cases hs : substrCpp context
        ((context.length + (SIZE_T_MOD - (i + 1))) % SIZE_T_MOD) (i + 1) with
    | none =>
      rw [generateLoop_step_none m context rands k i hs] at h
      exact absurd h (by simp)
    | some s =>
      cases hc : getModel m m.order s with
      | some chain =>
        rw [generateLoop_step_hit m context rands k i s chain hs hc] at h
        simp only [Option.some_inj, Prod.mk.injEq] at h
        exact Or.inr ⟨selectIndex chain (rands k), h.1.symm⟩
      | none =>
        rw [generateLoop_step_miss m context rands k i s hs hc] at h
        exact ih l k' h

theorem generate_shape (m : Model) (context : Word) (rands : Nat → ℚ) (k : Nat)
    (l : Char) (k' : Nat) (h : generate m context rands k = some (l, k')) :
    l = '#' ∨ ∃ idx, l = m.alphabet.getD idx '#' := by
  unfold generate at h
  by_cases ht : isTrained m
  · rw [if_pos ht] at h
    exact generateLoop_shape m context rands k m.order l k' h
  · rw [if_neg ht] at h
    simp only [Option.some_inj, Prod.mk.injEq] at h
    exact Or.inl h.1.symm

theorem growWord_mem (m : Model) (rands : Nat → ℚ) :
    ∀ (fuel : Nat) (word : Word) (k : Nat) (raw : Word) (k' : Nat),
    growWord m rands fuel word k = some (raw, k') →
    ∀ c ∈ raw, c ∈ word ∨ (c ≠ '#' ∧ c ∈ m.alphabet) := by
  intro fuel
  induction fuel with
  | zero =>
    intro word k raw k' h
    exact absurd h (by simp [growWord])
  | succ fuel ih =>
    intro word k raw k' h
    cases hg : generate m word rands k with
    | none =>
      rw [growWord_step_none m rands fuel word k hg] at h
      exact absurd h (by simp)
    | some p =>
      obtain ⟨letter, k1⟩ := p
      rw [growWord_step m rands fuel word k letter k1 hg] at h
      by_cases hl : letter = '#'
      · rw [if_pos hl] at h
        simp only [Option.some_inj, Prod.mk.injEq] at h
        intro c hc
        exact Or.inl (h.1 ▸ hc)
      · rw [if_neg hl] at h
        intro c hc
        rcases ih (word ++ [letter]) k1 raw k' h c hc with hcw | hrec
        · rcases List.mem_append.mp hcw with hcw | hcs
          · exact Or.inl hcw
          · have hceq : c = letter := by simpa using hcs
            subst hceq
            refine Or.inr ⟨hl, ?_⟩
            rcases generate_shape m word rands k c k1 hg with hh | ⟨idx, hidx⟩
            · exact absurd hh hl
            · by_cases hlen : idx < m.alphabet.length
              · rw [hidx, List.getD_eq_getElem?_getD, List.getElem?_eq_getElem hlen]
                simp only [Option.getD_some]
                exact List.getElem_mem hlen
              · have hdef : m.alphabet.getD idx '#' = '#' :=
                  List.getD_eq_default _ _ (le_of_not_lt hlen)
                rw [hdef] at hidx
                exact absurd hidx hl
        · exact Or.inr hrec

theorem newWordLoop_clean (m : Model) (rands : Nat → ℚ) (innerFuel : Nat)
    (minL maxL : Int) : ∀ (rem i k : Nat) (w : Word) (a k' : Nat),
    newWordLoop m rands innerFuel minL maxL rem i k = some (w, a, k') →
    ∀ c ∈ w, c ≠ '#' ∧ c ∈ m.alphabet := by
  intro rem
  induction rem with
  | zero =>
    intro i k w a k' h
    exact absurd h (by simp [newWordLoop])
  | succ rem ih =>
    intro i k w a k' h
    cases hg : growWord m rands innerFuel (List.replicate m.order '#') k with
    | none =>
      rw [newWordLoop_step_none m rands innerFuel minL maxL rem i k hg] at h
      exact absurd h (by simp)
    | some p =>
      obtain ⟨raw, k1⟩ := p
      rw [newWordLoop_step m rands innerFuel minL maxL rem i k raw k1 hg] at h
      by_cases hcond : i + 1 < 100 ∧ ((raw.filter (fun c => c != '#')).length < toSizeT minL
          ∨ (raw.filter (fun c => c != '#')).length > toSizeT maxL)
      · rw [if_pos hcond] at h
        exact ih (i + 1) k1 w a k' h
      · rw [if_neg hcond] at h
        simp only [Option.some_inj, Prod.mk.injEq] at h
        intro c hc
        rw [← h.1] at hc
        have hcf := List.mem_filter.mp hc
        have hne : c ≠ '#' := by simpa using hcf.2
        refine ⟨hne, ?_⟩
        rcases growWord_mem m rands innerFuel _ k raw k1 hg c hcf.1 with hrep | hok
        · exact absurd (List.eq_of_mem_replicate hrep) hne
        · exact hok.2

/-- C10: every string returned by WordGenerator::newWord, on any generator
(trained or not) and for any length bounds, contains no boundary marker:
all boundary markers are stripped from the working buffer before the
candidate is returned, and every remaining character was appended from the
model's alphabet. -/
theorem c10_no_boundary (m : Model) (rands : Nat → ℚ) (innerFuel : Nat)
    (minL maxL : Int) (k : Nat) (w : Word) (a k' : Nat)
    (h : newWord m rands innerFuel minL maxL k = some (w, a, k')) :
    ∀ c ∈ w, c ≠ '#' ∧ c ∈ m.alphabet := by
  unfold newWord at h
  by_cases ht : isTrained m
  · rw [if_pos ht] at h
    exact newWordLoop_clean m rands innerFuel minL maxL 100 0 k w a k' h
  · rw [if_neg ht] at h
    simp only [Option.some_inj, Prod.mk.injEq] at h
    intro c hc
    rw [← h.1] at hc
    simp at hc

/-- C10 witness: the theorem applied to the trained order-1 model, on which
newWord returns the word "a". -/
theorem c10_no_boundary_witness : 'a' ≠ '#' ∧ 'a' ∈ mA.alphabet :=
  c10_no_boundary mA rands0 2 1 8 0 ['a'] 1 2 (mA_newWord18 0) 'a' (by decide)

theorem newWordLoop_cap (m : Model) (rands : Nat → ℚ) (innerFuel : Nat)
    (minL maxL : Int) : ∀ (rem i k : Nat) (w : Word) (a k' : Nat), rem + i = 100 →
    newWordLoop m rands innerFuel minL maxL rem i k = some (w, a, k') →
    (i + 1 ≤ a ∧ a ≤ 100)
    ∧ ((∀ n : Nat, n < toSizeT minL ∨ n > toSizeT maxL) →
        a = 100 ∧ (w.length < toSizeT minL ∨ w.length > toSizeT maxL)) := by
  intro rem
  induction rem with
  | zero =>
    intro i k w a k' h100 h
    exact absurd h (by simp [newWordLoop])
  | succ rem ih =>
    intro i k w a k' h100 h
    cases hg : growWord m rands innerFuel (List.replicate m.order '#') k with
    | none =>
      rw [newWordLoop_step_none m rands innerFuel minL maxL rem i k hg] at h
      exact absurd h (by simp)
    | some p =>
      obtain ⟨raw, k1⟩ := p
      rw [newWordLoop_step m rands innerFuel minL maxL rem i k raw k1 hg] at h
      by_cases hcond : i + 1 < 100 ∧ ((raw.filter (fun c => c != '#')).length < toSizeT minL
          ∨ (raw.filter (fun c => c != '#')).length > toSizeT maxL)
      · rw [if_pos hcond] at h
        obtain ⟨⟨ha1, ha2⟩, hall⟩ := ih (i + 1) k1 w a k' (by omega) h
        exact ⟨⟨by omega, ha2⟩, hall⟩
      · rw [if_neg hcond] at h
        simp only [Option.some_inj, Prod.mk.injEq] at h
        obtain ⟨hw, ha, hk⟩ := h
        constructor
        · omega
        · intro hall
          have hcnd2 : (raw.filter (fun c => c != '#')).length < toSizeT minL
              ∨ (raw.filter (fun c => c != '#')).length > toSizeT maxL := hall _
          have hi100 : ¬ (i + 1 < 100) := fun hlt => hcond ⟨hlt, hcnd2⟩
          constructor
          · omega
          · rw [← hw]
            exact hcnd2

/-- C7 amended: on a trained generator, newWord performs between 1 and 100
attempts; whenever 0 ≤ maxLength < minLength (so that the int-to-size_t
conversions preserve both bounds and no length can satisfy them), it
returns after exactly 100 attempts, handing back the last candidate even
though its length is outside [minLength, maxLength].  (A negative
maxLength converts to a huge size_t bound instead, making the length check
pass immediately, which is what the counterexample exhibits.) -/
theorem c7_attempt_cap (m : Model) (rands : Nat → ℚ) (innerFuel : Nat)
    (minL maxL : Int) (k : Nat) (w : Word) (a k' : Nat)
    (ht : isTrained m = true)
    (h : newWord m rands innerFuel minL maxL k = some (w, a, k')) :
    (1 ≤ a ∧ a ≤ 100)
    ∧ (0 ≤ maxL → maxL < minL → minL < 18446744073709551616 →
        a = 100 ∧ (w.length < toSizeT minL ∨ w.length > toSizeT maxL)) := by
  unfold newWord at h
  rw [if_pos ht] at h
  have hcap := newWordLoop_cap m rands innerFuel minL maxL 100 0 k w a k' rfl h
  refine ⟨⟨hcap.1.1, hcap.1.2⟩, ?_⟩
  intro hmax hlt hsz
  apply hcap.2
  intro n
  unfold toSizeT
  omega

theorem mA_loop_min1max0 : ∀ rem, ∀ i k : Nat, rem + i = 100 → 1 ≤ rem →
    newWordLoop mA rands0 2 1 0 rem i k = some (['a'], 100, k + 2 * rem) := by
  intro rem
  induction rem with
  | zero =>
    intro i k h h1
    exact absurd h1 (by omega)
  | succ rem ih =>
    intro i k h100 _
    rw [newWordLoop_step mA rands0 2 1 0 rem i k ['#', 'a'] (k + 2) (mA_grow_rep k)]
    by_cases hi : i + 1 < 100
    · rw [if_pos ⟨hi, by decide⟩]
      rw [ih (i + 1) (k + 2) (by omega) (by omega)]
      have harith : k + 2 + 2 * rem = k + 2 * (rem + 1) := by ring
      rw [harith]
    · rw [if_neg (fun hcon => hi hcon.1)]
      have hi100 : i + 1 = 100 := by omega
      have hrem : rem = 0 := by omega
      subst hrem
      rw [hi100]
      rfl

theorem mA_newWord_min1max0 : newWord mA rands0 2 1 0 0 = some (['a'], 100, 200) := by
  unfold newWord
  rw [if_pos mA_trained]
  exact mA_loop_min1max0 100 0 0 rfl (by omega)

theorem mA_newWord_negmax : newWord mA rands0 2 0 (-1) 0 = some (['a'], 1, 2) := by
  unfold newWord
  rw [if_pos mA_trained]
  show newWordLoop mA rands0 2 0 (-1) (99 + 1) 0 0 = some (['a'], 1, 2)
  rw [newWordLoop_step mA rands0 2 0 (-1) 99 0 0 ['#', 'a'] 2 (mA_grow_rep 0)]
  rw [if_neg (by decide)]
  rfl

/-- C7 counterexample: with minLength = 0 > maxLength = -1, newWord on a
trained generator returns after a single attempt, not after 100: the
negative maxLength converts to 2^64 - 1 in the size_t comparison, so the
length check passes immediately. -/
theorem c7_min_gt_max_counterexample :
    ((0 : Int) > -1) ∧ newWord mA rands0 2 0 (-1) 0 = some (['a'], 1, 2)
    ∧ (1 : Nat) ≠ 100 :=
  ⟨by norm_num, mA_newWord_negmax, by norm_num⟩

/-- C7 amended witness: the amended theorem applied to the trained order-1
model with minLength 1, maxLength 0, where all 100 attempts are used and
the last candidate "a" (length outside [1, 0]) is returned. -/
theorem c7_attempt_cap_witness :
    (isTrained mA = true ∧ (0 : Int) ≤ 0 ∧ (0 : Int) < 1
      ∧ (1 : Int) < 18446744073709551616)
    ∧ ((100 : Nat) = 100
      ∧ ((['a'] : Word).length < toSizeT 1 ∨ (['a'] : Word).length > toSizeT 0)) :=
  ⟨⟨mA_trained, by norm_num, by norm_num, by norm_num⟩,
    (c7_attempt_cap mA rands0 2 1 0 0 ['a'] 100 200 mA_trained
      mA_newWord_min1max0).2 (by norm_num) (by norm_num) (by norm_num)⟩

theorem newWordsLoop_count (m : Model) (rands : Nat → ℚ) (innerFuel n : Nat)
    (minL maxL : Int) : ∀ (f k : Nat) (words ws : List Word) (k2 : Nat),
    words.length ≤ n →
    newWordsLoop m rands innerFuel n minL maxL true f k words = some (ws, k2) →
    ws.length = n := by
  intro f
  induction f with
  | zero =>
    intro k words ws k2 hle h
    exact absurd h (by simp [newWordsLoop])
  | succ f ih =>
    intro k words ws k2 hle h
    by_cases hlt : words.length < n
    · cases hn : newWord m rands innerFuel minL maxL k with
      | none =>
        rw [newWordsLoop_step_none m rands innerFuel n minL maxL true f k words hlt hn]
          at h
        exact absurd h (by simp)
      | some p =>
        obtain ⟨w, p2⟩ := p
        obtain ⟨aa, k1⟩ := p2
        rw [newWordsLoop_step m rands innerFuel n minL maxL true f k words w aa k1
          hlt hn] at h
        rw [if_pos (by simp)] at h
        refine ih k1 (words ++ [w]) ws k2 ?_ h
        rw [List.length_append, List.length_singleton]
        omega
    · rw [newWordsLoop_stop m rands innerFuel n minL maxL true f k words hlt] at h
      simp only [Option.some_inj, Prod.mk.injEq] at h
      rw [← h.1]
      omega

/-- C8 amended: on a trained generator, newWords with allowRepeats = true
returns exactly n strings whenever it returns (duplicates permitted); the
returned strings can be empty, so only the count is guaranteed. -/
theorem c8_exact_count (m : Model) (rands : Nat → ℚ) (innerFuel n : Nat)
    (minL maxL : Int) (f k : Nat) (ws : List Word) (k2 : Nat)
    (ht : isTrained m = true)
    (h : newWords m rands innerFuel n minL maxL true f k = some (ws, k2)) :
    ws.length = n := by
  unfold newWords at h
  rw [if_pos ht] at h
  exact newWordsLoop_count m rands innerFuel n minL maxL f k [] ws k2 (by simp) h

theorem mA_newWords_eval :
    newWords mA rands0 2 2 1 8 true 3 0 = some ([['a'], ['a']], 4) := by
  unfold newWords
  rw [if_pos mA_trained]
  show newWordsLoop mA rands0 2 2 1 8 true (2 + 1) 0 [] = some ([['a'], ['a']], 4)
  rw [newWordsLoop_step mA rands0 2 2 1 8 true 2 0 [] ['a'] 1 2 (by decide)
    (mA_newWord18 0)]
  rw [if_pos (by simp)]
  show newWordsLoop mA rands0 2 2 1 8 true (1 + 1) 2 [['a']] = some ([['a'], ['a']], 4)
  rw [newWordsLoop_step mA rands0 2 2 1 8 true 1 2 [['a']] ['a'] 1 4 (by decide)
    (mA_newWord18 2)]
  rw [if_pos (by simp)]
  show newWordsLoop mA rands0 2 2 1 8 true (0 + 1) 4 [['a'], ['a']]
    = some ([['a'], ['a']], 4)
  rw [newWordsLoop_stop mA rands0 2 2 1 8 true 0 4 [['a'], ['a']] (by decide)]

/-- C8 amended witness: the amended theorem applied to the trained order-1
model, where newWords(2, 1, 8, allowRepeats = true) returns exactly the two
words "a", "a". -/
theorem c8_exact_count_witness :
    isTrained mA = true ∧ ([['a'], ['a']] : List Word).length = 2 :=
  ⟨mA_trained,
    c8_exact_count mA rands0 2 2 1 8 3 0 [['a'], ['a']] 4 mA_trained mA_newWords_eval⟩

theorem mE_trained : isTrained mE = true := by decide

theorem mE_order : mE.order = 1 := rfl

theorem mE_alpha : mE.alphabet = ['#'] := by decide

theorem mE_chain_hash : getModel mE 1 ['#'] = some [0 + ((1 : Nat) : ℚ)] := rfl

theorem selE : selectIndex [1] 0 = 0 := by
  norm_num [selectIndex, totalsFrom, scanLoop]

theorem mE_gen_seed (k : Nat) : generate mE ['#'] rands0 k = some ('#', k + 1) := by
  simp only [generate, mE_trained, if_true, mE_order, generateLoop, rands0]
  norm_num [substrCpp, SIZE_T_MOD, mE_chain_hash, selE, mE_alpha]

theorem mE_grow (k : Nat) : growWord mE rands0 1 ['#'] k = some (['#'], k + 1) := by
  show growWord mE rands0 (0 + 1) ['#'] k = some (['#'], k + 1)
  rw [growWord_step mE rands0 0 ['#'] k '#' (k + 1) (mE_gen_seed k)]
  rw [if_pos rfl]

theorem mE_grow_rep (k : Nat) :
    growWord mE rands0 1 (List.replicate mE.order '#') k = some (['#'], k + 1) :=
  mE_grow k

theorem mE_newWord (k : Nat) : newWord mE rands0 1 0 8 k = some ([], 1, k + 1) := by
  unfold newWord
  rw [if_pos mE_trained]
  show newWordLoop mE rands0 1 0 8 (99 + 1) 0 k = some ([], 1, k + 1)
  rw [newWordLoop_step mE rands0 1 0 8 99 0 k ['#'] (k + 1) (mE_grow_rep k)]
  rw [if_neg (by decide)]
  rfl

theorem mE_newWords : newWords mE rands0 1 1 0 8 true 2 0 = some ([[]], 1) := by
  unfold newWords
  rw [if_pos mE_trained]
  show newWordsLoop mE rands0 1 1 0 8 true (1 + 1) 0 [] = some ([[]], 1)
  rw [newWordsLoop_step mE rands0 1 1 0 8 true 1 0 [] [] 1 1 (by decide) (mE_newWord 0)]
  rw [if_pos (by simp)]
  show newWordsLoop mE rands0 1 1 0 8 true (0 + 1) 1 [[]] = some ([[]], 1)
  rw [newWordsLoop_stop mE rands0 1 1 0 8 true 0 1 [[]] (by decide)]

/-- C8 counterexample: on the model trained from the corpus holding one
empty word, newWords(1, 0, 8, allowRepeats = true) returns the sequence
holding the empty string, so the returned strings are not all non-empty. -/
theorem c8_empty_word_counterexample :
    isTrained mE = true
    ∧ newWords mE rands0 1 1 0 8 true 2 0 = some ([[]], 1)
    ∧ ([] : Word) ∈ [([] : Word)] ∧ ([] : Word).length = 0 :=
  ⟨mE_trained, mE_newWords, by decide, rfl⟩
